import Mathlib

/-!
Verification of the fuzzing harness in
`src/nsigii_lte_codec/6-NSIGII_Not_A_Toy/fuzz/main.rs`:

```rust
fuzz_target!(|data: &[u8]| {
    if let Ok(s) = std::str::from_utf8(data) {
        let _ = parse(s); // should never panic / segfault
    }
});
```

The harness receives a byte buffer, attempts a strict UTF-8 decode via
`std::str::from_utf8`, and on success calls the external `npl_parser::parse`
with the resulting `&str`, discarding the result.

Embedding choices:
* a byte is a `Nat` (actual inputs range over `0..=255`; every definition
  below agrees with the `u8` semantics on that range and rejects values
  `≥ 0x100` as invalid lead/continuation bytes, exactly as the `u8`
  byte-class tests would);
* a `&str` is modelled by its underlying byte sequence (`std::str::from_utf8`
  re-views the input buffer without copying, so on success the str's bytes
  are the input bytes);
* `std::str::from_utf8` is modelled by `from_utf8` below, built on
  `validUtf8`, a faithful transcription of the standard library's
  `run_utf8_validation` byte-class state machine (lead-byte width dispatch
  plus the per-width second-byte range table);
* the external parser `npl_parser::parse` is out of scope (it is not part of
  this repository slice); the spec requires it to be a total function from
  text to `Result<ParsedValue, ParseError>`, so it is a universally
  quantified Lean function `parse : Str → Except E V`;
* `fuzz_target` is the direct translation of the harness body, and
  `fuzz_targetRun` is the same control flow instrumented to record the
  observable events of one invocation (which arguments `parse` was invoked
  with, what it returned, and the harness's return value).
-/

/-- A `&str` is its underlying UTF-8 byte sequence.  A byte of fuzz input
is a `Nat` (real inputs are `u8` values, `< 0x100`). -/
abbrev Str := List Nat

/-- Continuation-byte test: `0x80 ≤ b ≤ 0xBF` (the `u8` byte-class check
`b & 0xC0 == 0x80` of the std validator, written as the equivalent range
test on `0..=255`). -/
def isCont (b : Nat) : Bool := 0x80 ≤ b && b ≤ 0xBF

/-- Second-byte table for three-byte sequences, from the std validator:
`(0xE0, 0xA0..=0xBF) | (0xE1..=0xEC, 0x80..=0xBF) | (0xED, 0x80..=0x9F) |
(0xEE..=0xEF, 0x80..=0xBF)`. -/
def valid3 (b0 b1 : Nat) : Bool :=
  (b0 == 0xE0 && 0xA0 ≤ b1 && b1 ≤ 0xBF) ||
  (0xE1 ≤ b0 && b0 ≤ 0xEC && isCont b1) ||
  (b0 == 0xED && 0x80 ≤ b1 && b1 ≤ 0x9F) ||
  (0xEE ≤ b0 && b0 ≤ 0xEF && isCont b1)

/-- Second-byte table for four-byte sequences, from the std validator:
`(0xF0, 0x90..=0xBF) | (0xF1..=0xF3, 0x80..=0xBF) | (0xF4, 0x80..=0x8F)`. -/
def valid4 (b0 b1 : Nat) : Bool :=
  (b0 == 0xF0 && 0x90 ≤ b1 && b1 ≤ 0xBF) ||
  (0xF1 ≤ b0 && b0 ≤ 0xF3 && isCont b1) ||
  (b0 == 0xF4 && 0x80 ≤ b1 && b1 ≤ 0x8F)

/-- Trailing byte of a two-byte sequence (lead `0xC2..=0xDF`): consume one
continuation byte and combine the payloads.  Payload arithmetic is written
with `-`, `*`, `+`; on the byte ranges admitted by the guards this
coincides with the masked bit shifts of the std decoder. -/
def step2 (b0 : Nat) : List Nat → Option (Nat × List Nat)
  | b1 :: rest2 =>
    if isCont b1 then some ((b0 - 0xC0) * 0x40 + (b1 - 0x80), rest2)
    else none
  | [] => none

/-- Trailing bytes of a three-byte sequence (lead `0xE0..=0xEF`): the
second byte is constrained by `valid3`, the third is a plain continuation
byte. -/
def step3 (b0 : Nat) : List Nat → Option (Nat × List Nat)
  | b1 :: b2 :: rest3 =>
    if valid3 b0 b1 && isCont b2 then
      some ((b0 - 0xE0) * 0x1000 + (b1 - 0x80) * 0x40 + (b2 - 0x80), rest3)
    else none
  | _ => none

/-- Trailing bytes of a four-byte sequence (lead `0xF0..=0xF4`): the
second byte is constrained by `valid4`, the third and fourth are plain
continuation bytes. -/
def step4 (b0 : Nat) : List Nat → Option (Nat × List Nat)
  | b1 :: b2 :: b3 :: rest4 =>
    if valid4 b0 b1 && isCont b2 && isCont b3 then
      some ((b0 - 0xF0) * 0x40000 + (b1 - 0x80) * 0x1000 +
              (b2 - 0x80) * 0x40 + (b3 - 0x80), rest4)
    else none
  | _ => none

/-- Consume one UTF-8 encoded character beginning with lead byte `b0`,
returning its scalar value and the remaining bytes, or `none` on an
ill-formed sequence.  This is the lead-byte width dispatch of the std
validator `run_utf8_validation`: lead bytes `0x00..=0x7F` stand alone;
`0xC2..=0xDF` take one continuation byte; `0xE0..=0xEF` and `0xF0..=0xF4`
take two and three trailing bytes constrained by the second-byte tables;
every other lead byte (`0x80..=0xC1`, `0xF5..`) is invalid. -/
def utf8Step (b0 : Nat) (rest : List Nat) : Option (Nat × List Nat) :=
  if b0 < 0x80 then some (b0, rest)
  else if 0xC2 ≤ b0 && b0 ≤ 0xDF then step2 b0 rest
  else if 0xE0 ≤ b0 && b0 ≤ 0xEF then step3 b0 rest
  else if 0xF0 ≤ b0 && b0 ≤ 0xF4 then step4 b0 rest
  else none

/-- A successful step consumes at least the lead byte, so the remainder is
no longer than the trailing bytes (used for termination below). -/
theorem utf8Step_length {b0 : Nat} {rest r : List Nat} {c : Nat}
    (h : utf8Step b0 rest = some (c, r)) : r.length ≤ rest.length := by
  unfold utf8Step at h
  split at h
  · simp at h; simp [← h.2]
  · split at h
    · unfold step2 at h
      rcases rest with _ | ⟨b1, rest2⟩ <;> simp at h
      obtain ⟨-, -, rfl⟩ := h
      simp only [List.length_cons]
      omega
    · split at h
      · unfold step3 at h
        rcases rest with _ | ⟨b1, _ | ⟨b2, rest3⟩⟩ <;> simp at h
        obtain ⟨-, -, rfl⟩ := h
        simp only [List.length_cons]
        omega
      · split at h
        · unfold step4 at h
          rcases rest with _ | ⟨b1, _ | ⟨b2, _ | ⟨b3, rest4⟩⟩⟩ <;> simp at h
          obtain ⟨-, -, rfl⟩ := h
          simp only [List.length_cons]
          omega
        · simp at h

/-- Strict UTF-8 validation: the loop of `run_utf8_validation` (the
validator behind `std::str::from_utf8`), consuming one encoded character
per iteration until the input is exhausted or a malformed sequence is
found. -/
def validUtf8 : List Nat → Bool
  | [] => true
  | b0 :: rest =>
    match h : utf8Step b0 rest with
    | some (_, rest2) => validUtf8 rest2
    | none => false
termination_by b => b.length
decreasing_by
  have := utf8Step_length h
  simp
  omega

/-- Decoding of a valid UTF-8 byte sequence into its Unicode scalar values
(the semantics of `str::chars` on the view returned by `from_utf8`);
`none` exactly where `validUtf8` rejects. -/
def utf8DecodeChars : List Nat → Option (List Nat)
  | [] => some []
  | b0 :: rest =>
    match h : utf8Step b0 rest with
    | some (c, rest2) => (utf8DecodeChars rest2).map (fun cs => c :: cs)
    | none => none
termination_by b => b.length
decreasing_by
  have := utf8Step_length h
  simp
  omega

/-- A Unicode scalar value: a code point outside the surrogate range,
at most `U+10FFFF`. -/
def isScalar (c : Nat) : Bool :=
  c < 0xD800 || (0xE000 ≤ c && c ≤ 0x10FFFF)

/-- UTF-8 encoding of one scalar value (the spec-side notion of a
well-formed encoded text sequence: `char::encode_utf8`). -/
def utf8EncodeChar (c : Nat) : List Nat :=
  if c < 0x80 then [c]
  else if c < 0x800 then [0xC0 + c / 0x40, 0x80 + c % 0x40]
  else if c < 0x10000 then
    [0xE0 + c / 0x1000, 0x80 + (c / 0x40) % 0x40, 0x80 + c % 0x40]
  else
    [0xF0 + c / 0x40000, 0x80 + (c / 0x1000) % 0x40,
      0x80 + (c / 0x40) % 0x40, 0x80 + c % 0x40]

/-- UTF-8 encoding of a sequence of scalar values. -/
def utf8Encode : List Nat → List Nat
  | [] => []
  | c :: cs => utf8EncodeChar c ++ utf8Encode cs

/-- Model of `std::str::from_utf8`: run strict validation; on success
return the `&str`, which is a re-view of the very same bytes (no copy, no
transformation); on failure return a `Utf8Error` (modelled opaquely as
`Unit`).  There is no lossy or substituting fallback. -/
def from_utf8 (data : List Nat) : Except Unit Str :=
  if validUtf8 data then .ok data else .error ()

/-- Direct translation of the harness body
`|data| { if let Ok(s) = from_utf8(data) { let _ = parse(s); } }`.
`parse` is the external `npl_parser::parse`, total by the interface
contract, with unknown success and error payload types `V` and `E`. -/
def fuzz_target {V E : Type} (parse : Str → Except E V) (data : List Nat) :
    Unit :=
  match from_utf8 data with
  | .ok s =>
    let _ := parse s
    ()
  | .error _ => ()

/-- Observable events of one harness invocation: the arguments `parse` was
invoked with (in order), the results those calls returned (all discarded by
the harness), and the harness's return value. -/
structure HarnessRun (V E : Type) where
  calls : List Str
  outcomes : List (Except E V)
  ret : Unit

/-- The harness body instrumented to record its observable events: same
control flow as `fuzz_target`, additionally logging each invocation of
`parse` and its (discarded) result. -/
def fuzz_targetRun {V E : Type} (parse : Str → Except E V)
    (data : List Nat) : HarnessRun V E :=
  match from_utf8 data with
  | .ok s => { calls := [s], outcomes := [parse s], ret := () }
  | .error _ => { calls := [], outcomes := [], ret := () }

/-- A sequence of consecutive invocations driven by the engine: the harness
is invoked once per candidate input, and there is no carried state. -/
def runSeq {V E : Type} (parse : Str → Except E V)
    (inputs : List (List Nat)) : List (HarnessRun V E) :=
  inputs.map (fuzz_targetRun parse)

/-- Validation and decoding agree: `run_utf8_validation` accepts exactly
the byte sequences on which the character decoder succeeds. -/
theorem valid_iff_decode (b : List Nat) :
    validUtf8 b = true ↔ (utf8DecodeChars b).isSome = true := by
  induction b using validUtf8.induct with
  | case1 => simp [validUtf8, utf8DecodeChars]
  | case2 b0 rest c rest2 h ih =>
    simp only [validUtf8, utf8DecodeChars]
    split <;> simp_all
  | case3 b0 rest h =>
    simp only [validUtf8, utf8DecodeChars]
    split <;> simp_all

/-- Soundness of one decoding step: the produced code point is a Unicode
scalar value and its UTF-8 encoding is exactly the bytes consumed. -/
theorem utf8Step_sound {b0 c : Nat} {rest r : List Nat}
    (h : utf8Step b0 rest = some (c, r)) :
    isScalar c = true ∧ utf8EncodeChar c ++ r = b0 :: rest := by
  unfold utf8Step at h
  split at h
  · rename_i hlt
    simp only [Option.some.injEq, Prod.mk.injEq] at h
    obtain ⟨rfl, rfl⟩ := h
    refine ⟨?_, ?_⟩
    · simp [isScalar]
      omega
    · simp [utf8EncodeChar, hlt]
  · split at h
    · rename_i hlt hc
      simp only [Bool.and_eq_true, decide_eq_true_eq] at hc
      unfold step2 at h
      rcases rest with _ | ⟨b1, rest2⟩ <;> simp [isCont] at h
      obtain ⟨hb1, rfl, rfl⟩ := h
      refine ⟨?_, ?_⟩
      · simp [isScalar]
        omega
      · have h1 : ¬ (b0 - 0xC0) * 0x40 + (b1 - 0x80) < 0x80 := by omega
        have h2 : (b0 - 0xC0) * 0x40 + (b1 - 0x80) < 0x800 := by omega
        simp [utf8EncodeChar, h1, h2]
        omega
    · split at h
      · rename_i hlt hc2 hc
        simp only [Bool.and_eq_true, decide_eq_true_eq] at hc hc2
        unfold step3 at h
        rcases rest with _ | ⟨b1, _ | ⟨b2, rest3⟩⟩ <;>
          simp [valid3, isCont] at h
        obtain ⟨⟨hb1, hb2⟩, rfl, rfl⟩ := h
        refine ⟨?_, ?_⟩
        · simp [isScalar]
          omega
        · have h1 :
              ¬ (b0 - 0xE0) * 0x1000 + (b1 - 0x80) * 0x40 + (b2 - 0x80) <
                0x80 := by omega
          have h2 :
              ¬ (b0 - 0xE0) * 0x1000 + (b1 - 0x80) * 0x40 + (b2 - 0x80) <
                0x800 := by omega
          have h3 :
              (b0 - 0xE0) * 0x1000 + (b1 - 0x80) * 0x40 + (b2 - 0x80) <
                0x10000 := by omega
          simp [utf8EncodeChar, h1, h2, h3]
          omega
      · split at h
        · rename_i hlt hc2 hc3 hc
          simp only [Bool.and_eq_true, decide_eq_true_eq] at hc hc2 hc3
          unfold step4 at h
          rcases rest with _ | ⟨b1, _ | ⟨b2, _ | ⟨b3, rest4⟩⟩⟩ <;>
            simp [valid4, isCont] at h
          obtain ⟨⟨hb1, hb2, hb3⟩, rfl, rfl⟩ := h
          refine ⟨?_, ?_⟩
          · simp [isScalar]
            omega
          · have h1 :
                ¬ (b0 - 0xF0) * 0x40000 + (b1 - 0x80) * 0x1000 +
                  (b2 - 0x80) * 0x40 + (b3 - 0x80) < 0x80 := by omega
            have h2 :
                ¬ (b0 - 0xF0) * 0x40000 + (b1 - 0x80) * 0x1000 +
                  (b2 - 0x80) * 0x40 + (b3 - 0x80) < 0x800 := by omega
            have h3 :
                ¬ (b0 - 0xF0) * 0x40000 + (b1 - 0x80) * 0x1000 +
                  (b2 - 0x80) * 0x40 + (b3 - 0x80) < 0x10000 := by omega
            simp [utf8EncodeChar, h1, h2, h3]
            omega
        · simp at h

/-- Completeness of one decoding step: the UTF-8 encoding of any Unicode
scalar value is non-empty, and the step function consumes exactly that
encoding, recovering the scalar value and the untouched remainder. -/
theorem utf8Step_encode {c : Nat} (hc : isScalar c = true) (rest : List Nat) :
    ∃ b0 bs, utf8EncodeChar c = b0 :: bs ∧
      utf8Step b0 (bs ++ rest) = some (c, rest) := by
  simp only [isScalar, Bool.or_eq_true, Bool.and_eq_true,
    decide_eq_true_eq] at hc
  by_cases h1 : c < 0x80
  · refine ⟨c, [], by simp [utf8EncodeChar, h1], ?_⟩
    simp [utf8Step, h1]
  · by_cases h2 : c < 0x800
    · refine ⟨0xC0 + c / 0x40, [0x80 + c % 0x40],
        by simp [utf8EncodeChar, h1, h2], ?_⟩
      have g5 : isCont (0x80 + c % 0x40) = true := by
        simp [isCont]
        omega
      simp [utf8Step, step2, g5,
        (show ¬ 0xC0 + c / 0x40 < 0x80 by omega),
        (show 0xC2 ≤ 0xC0 + c / 0x40 by omega),
        (show 0xC0 + c / 0x40 ≤ 0xDF by omega)]
      omega
    · by_cases h3 : c < 0x10000
      · refine ⟨0xE0 + c / 0x1000,
          [0x80 + (c / 0x40) % 0x40, 0x80 + c % 0x40],
          by simp [utf8EncodeChar, h1, h2, h3], ?_⟩
        have key : c / 0x40 / 0x40 = c / 0x1000 := by omega
        have g4 : valid3 (0xE0 + c / 0x1000) (0x80 + (c / 0x40) % 0x40) =
            true := by
          simp [valid3, isCont]
          omega
        have g5 : isCont (0x80 + c % 0x40) = true := by
          simp [isCont]
          omega
        simp [utf8Step, step3, g4, g5,
          (show ¬ 0xE0 + c / 0x1000 < 0x80 by omega),
          (show ¬ 0xE0 + c / 0x1000 ≤ 0xDF by omega),
          (show 0xE0 ≤ 0xE0 + c / 0x1000 by omega),
          (show 0xE0 + c / 0x1000 ≤ 0xEF by omega)]
        omega
      · refine ⟨0xF0 + c / 0x40000,
          [0x80 + (c / 0x1000) % 0x40, 0x80 + (c / 0x40) % 0x40,
            0x80 + c % 0x40],
          by simp [utf8EncodeChar, h1, h2, h3], ?_⟩
        have key1 : c / 0x40 / 0x40 = c / 0x1000 := by omega
        have key2 : c / 0x1000 / 0x40 = c / 0x40000 := by omega
        have g4 : valid4 (0xF0 + c / 0x40000) (0x80 + (c / 0x1000) % 0x40) =
            true := by
          simp [valid4, isCont]
          omega
        have g5 : isCont (0x80 + (c / 0x40) % 0x40) = true := by
          simp [isCont]
          omega
        have g6 : isCont (0x80 + c % 0x40) = true := by
          simp [isCont]
          omega
        simp [utf8Step, step4, g4, g5, g6,
          (show ¬ 0xF0 + c / 0x40000 < 0x80 by omega),
          (show ¬ 0xF0 + c / 0x40000 ≤ 0xDF by omega),
          (show ¬ 0xF0 + c / 0x40000 ≤ 0xEF by omega),
          (show 0xF0 ≤ 0xF0 + c / 0x40000 by omega),
          (show 0xF0 + c / 0x40000 ≤ 0xF4 by omega)]
        omega

/-- Soundness of the decoder: every decoded code point is a Unicode scalar
value, and re-encoding the decoded sequence reproduces the input bytes
exactly. -/
theorem utf8DecodeChars_sound {b cs : List Nat}
    (h : utf8DecodeChars b = some cs) :
    (∀ c ∈ cs, isScalar c = true) ∧ utf8Encode cs = b := by
  induction b using utf8DecodeChars.induct generalizing cs with
  | case1 =>
    simp [utf8DecodeChars] at h
    subst h
    simp [utf8Encode]
  | case2 b0 rest c0 rest2 hstep ih =>
    simp only [utf8DecodeChars] at h
    split at h
    · rename_i fst r' heq
      rw [hstep] at heq
      simp only [Option.some.injEq, Prod.mk.injEq] at heq
      obtain ⟨rfl, rfl⟩ := heq
      simp only [Option.map_eq_some'] at h
      obtain ⟨cs', hdec, rfl⟩ := h
      obtain ⟨hsc, henc⟩ := ih hdec
      obtain ⟨hc0, hbytes⟩ := utf8Step_sound hstep
      refine ⟨?_, ?_⟩
      · intro x hx
        rcases List.mem_cons.mp hx with rfl | hx'
        · exact hc0
        · exact hsc x hx'
      · rw [show utf8Encode (c0 :: cs') =
            utf8EncodeChar c0 ++ utf8Encode cs' from rfl, henc, hbytes]
    · exact absurd h (by simp)
  | case3 b0 rest hstep =>
    simp only [utf8DecodeChars] at h
    split at h <;> simp_all

/-- Completeness of the decoder: the UTF-8 encoding of any sequence of
Unicode scalar values decodes back to exactly that sequence. -/
theorem utf8Encode_decode {cs : List Nat}
    (h : ∀ c ∈ cs, isScalar c = true) :
    utf8DecodeChars (utf8Encode cs) = some cs := by
  induction cs with
  | nil => simp [utf8Encode, utf8DecodeChars]
  | cons c cs ih =>
    have hc : isScalar c = true := h c (by simp)
    have hcs : ∀ x ∈ cs, isScalar x = true := fun x hx => h x (by simp [hx])
    obtain ⟨b0, bs, he, hs⟩ := utf8Step_encode hc (utf8Encode cs)
    show utf8DecodeChars (utf8EncodeChar c ++ utf8Encode cs) = some (c :: cs)
    rw [he]
    simp only [List.cons_append]
    simp only [utf8DecodeChars]
    split
    · rename_i fst r' heq
      rw [hs] at heq
      simp only [Option.some.injEq, Prod.mk.injEq] at heq
      obtain ⟨rfl, rfl⟩ := heq
      simp [ih hcs]
    · rename_i heq
      rw [hs] at heq
      simp at heq

/-- Correctness of strict validation: the validator accepts a byte
sequence exactly when it is the UTF-8 encoding of some sequence of Unicode
scalar values. -/
theorem validUtf8_iff_encoding (b : List Nat) :
    validUtf8 b = true ↔
      ∃ cs, (∀ c ∈ cs, isScalar c = true) ∧ utf8Encode cs = b := by
  rw [valid_iff_decode]
  constructor
  · intro h
    obtain ⟨cs, hcs⟩ := Option.isSome_iff_exists.mp h
    exact ⟨cs, (utf8DecodeChars_sound hcs).1, (utf8DecodeChars_sound hcs).2⟩
  · rintro ⟨cs, hsc, rfl⟩
    rw [utf8Encode_decode hsc]
    rfl

/-- C1: for every byte sequence `data` (including the empty and maximally
adversarial ones), invoking the harness entry point returns normally — the
translation of the body is a total function yielding the unit return value
— under the hypothesis, built into the embedding, that the external
`parse` is a total function (it is an arbitrary Lean function, and the
statement holds for all of them). -/
theorem C1_no_crash {V E : Type} (parse : Str → Except E V)
    (data : List Nat) :
    fuzz_target parse data = () ∧ (fuzz_targetRun parse data).ret = () :=
  ⟨rfl, rfl⟩

/-- C2: for every byte sequence that is not valid UTF-8, the entry point
returns normally without invoking the parser at all — the recorded run has
no `parse` calls and no outcomes, and the unit return value; the decode
failure is silently skipped. -/
theorem C2_decode_gating {V E : Type} (parse : Str → Except E V)
    (data : List Nat) (h : validUtf8 data = false) :
    fuzz_targetRun parse data =
      { calls := [], outcomes := [], ret := () } := by
  simp [fuzz_targetRun, from_utf8, h]

/-- Witness for C2 at the concrete invalid input `[0x80]` (a lone
continuation byte). -/
theorem C2_decode_gating_witness :
    validUtf8 [0x80] = false ∧
      fuzz_targetRun (fun _ => Except.ok ()) [0x80] =
        { calls := [], outcomes := ([] : List (Except Unit Unit)),
          ret := () } := by
  have h : validUtf8 [0x80] = false := by
    simp [validUtf8, utf8Step, step2, step3, step4, isCont, valid3, valid4]
  exact ⟨h, C2_decode_gating (fun _ => Except.ok ()) [0x80] h⟩

/-- C3: whenever decoding succeeds with text `s`, the harness invokes the
parser exactly with `s` as its sole argument, records whatever the parser
returned (either arm), discards it, and returns normally — for every
parser, hence in both the success and the structured-error arm. -/
theorem C3_dispatch {V E : Type} (parse : Str → Except E V)
    (data s : List Nat) (h : from_utf8 data = Except.ok s) :
    fuzz_targetRun parse data =
      { calls := [s], outcomes := [parse s], ret := () } := by
  simp [fuzz_targetRun, h]

/-- Witness for C3 at the concrete input `[0x61]` (the text `"a"`), with a
parser that returns a structured error — the error is recorded, discarded,
and the run still returns the unit value. -/
theorem C3_dispatch_witness :
    from_utf8 [0x61] = Except.ok [0x61] ∧
      fuzz_targetRun (fun _ => Except.error 0) [0x61] =
        { calls := [[0x61]], outcomes := [(Except.error 0 : Except Nat Unit)],
          ret := () } := by
  have h : from_utf8 [0x61] = Except.ok [0x61] := by
    simp [from_utf8, validUtf8, utf8Step, step2, step3, step4]
  exact ⟨h, C3_dispatch (fun _ => Except.error 0) [0x61] [0x61] h⟩

/-- C4: the decoding step enforces strict validity — `from_utf8` succeeds
on exactly the byte sequences that are the UTF-8 encoding of some sequence
of Unicode scalar values; on any other sequence it fails, so no lossy or
substituting decode ever turns ill-formed bytes into text. -/
theorem C4_strict_decode (b : List Nat) :
    (∃ s, from_utf8 b = Except.ok s) ↔
      ∃ cs, (∀ c ∈ cs, isScalar c = true) ∧ utf8Encode cs = b := by
  rw [← validUtf8_iff_encoding]
  constructor
  · rintro ⟨s, hs⟩
    unfold from_utf8 at hs
    split at hs
    · assumption
    · exact absurd hs (by simp)
  · intro h
    exact ⟨b, by simp [from_utf8, h]⟩

/-- C5: the entry point never raises a structured error to the driving
engine — its return type is `Unit`, whose single value every invocation
returns, so the interface carries no error channel at all: every value of
the return type is the normal return. -/
theorem C5_no_error_channel {V E : Type} (parse : Str → Except E V)
    (data : List Nat) (u : Unit) :
    fuzz_target parse data = u := rfl

/-- C6: the harness is a deterministic function of its input alone with no
cross-invocation state: in any sequence of invocations, after an arbitrary
prefix `pre` of earlier calls, two consecutive invocations on the same
input `b` each produce the very denotation of the single run on `b` — in
particular, identical outcomes — so no earlier call affects a later one. -/
theorem C6_stateless {V E : Type} (parse : Str → Except E V)
    (pre : List (List Nat)) (b : List Nat) :
    (runSeq parse (pre ++ [b, b])).drop pre.length =
      [fuzz_targetRun parse b, fuzz_targetRun parse b] := by
  simp [runSeq]

/-- C7: on the empty byte sequence, decoding succeeds with the empty text,
the parser is invoked once with the empty text, and the entry point
returns normally. -/
theorem C7_empty_input {V E : Type} (parse : Str → Except E V) :
    from_utf8 [] = Except.ok [] ∧
      fuzz_targetRun parse [] =
        { calls := [[]], outcomes := [parse []], ret := () } := by
  have h : from_utf8 [] = Except.ok [] := by simp [from_utf8, validUtf8]
  exact ⟨h, by simp [fuzz_targetRun, h]⟩

/-- C9: when decoding succeeds, the text handed to the parser has exactly
the bytes of the input (`from_utf8` re-views the buffer), and re-encoding
its decoded scalar values recovers those bytes — decoding is the identity
on the underlying byte content. -/
theorem C9_identity {data s : List Nat}
    (h : from_utf8 data = Except.ok s) :
    s = data ∧ ∃ cs, utf8DecodeChars s = some cs ∧ utf8Encode cs = s := by
  have hv : validUtf8 data = true ∧ s = data := by
    unfold from_utf8 at h
    split at h
    · rename_i hval
      simp only [Except.ok.injEq] at h
      exact ⟨hval, h.symm⟩
    · exact absurd h (by simp)
  obtain ⟨hv, rfl⟩ := hv
  refine ⟨rfl, ?_⟩
  obtain ⟨cs, hcs⟩ := Option.isSome_iff_exists.mp ((valid_iff_decode _).mp hv)
  exact ⟨cs, hcs, (utf8DecodeChars_sound hcs).2⟩

/-- Witness for C9 at the concrete valid input `[0xC3, 0xA9]` (the UTF-8
encoding of `é`). -/
theorem C9_identity_witness :
    from_utf8 [0xC3, 0xA9] = Except.ok [0xC3, 0xA9] ∧
      ([0xC3, 0xA9] : List Nat) = [0xC3, 0xA9] ∧
      ∃ cs, utf8DecodeChars [0xC3, 0xA9] = some cs ∧
        utf8Encode cs = [0xC3, 0xA9] := by
  have h : from_utf8 [0xC3, 0xA9] = Except.ok [0xC3, 0xA9] := by
    simp [from_utf8, validUtf8, utf8Step, step2, step3, step4, isCont]
  exact ⟨h, C9_identity h⟩

/-- C10: per invocation the parser is called at most once — exactly once
when decoding succeeds and zero times when it fails; there are no retries
and no repeated dispatch. -/
theorem C10_at_most_once {V E : Type} (parse : Str → Except E V)
    (data : List Nat) :
    (fuzz_targetRun parse data).calls.length ≤ 1 ∧
      ((fuzz_targetRun parse data).calls.length = 1 ↔
        validUtf8 data = true) := by
  by_cases h : validUtf8 data = true
  · simp [fuzz_targetRun, from_utf8, h]
  · simp [fuzz_targetRun, from_utf8, h]
